import Mathlib

/-!
Verification of the workflow-orchestration core behind the
penguin-classification pipeline exercise.  The repository's notebook
(`src/exercise.ipynb`) only issues calls into the external MLRun platform,
so the orchestration core itself (step registry, pipeline graph, run
executor, serving gateway, project store) is modelled from the
specification and verified here; the notebook contributes the concrete
pipeline signature and the concrete model-input payload.
-/

namespace Orch

/-- Modelled from the spec: the error taxonomy of §7; the repository source
contains no implementation of these errors. -/
inductive OrchError where
  | invalidStepDefinition
  | unknownStep
  | cyclicPipeline
  | unresolvedBinding
  | missingParameter
  | unknownRun
  | modelLoadError
  | endpointNotReady
  | invalidPayload
  | timeoutExceeded
  | projectAlreadyExists
  | unknownProject
  deriving DecidableEq

/-- Execution kind of a registered step: a finite batch job or a
long-running service. -/
inductive ExecKind where
  | batch
  | service
  deriving DecidableEq

/-- Modelled from the spec: `StepDefinition` (§3) — the source only calls
`project.set_function` with elided arguments.  A step definition has a
name, an execution kind, an entry reference, declared parameters (name
with optional default), declared inputs and declared outputs. -/
structure StepDefinition where
  name : String
  kind : ExecKind
  entry : String
  params : List (String × Option String)
  inputs : List String
  outputs : List String
  deriving DecidableEq

/-- Modelled from the spec: an input binding of a step invocation (§3) —
either a literal value or another invocation's named output. -/
inductive Binding where
  | literal (value : String)
  | output (producer : String) (out : String)
  deriving DecidableEq

/-- Modelled from the spec: `StepInvocation` (§3): references a step
definition by name, supplies parameter values and input bindings, and
declares its outputs. -/
structure StepInvocation where
  stepName : String
  params : List (String × String)
  bindings : List (String × Binding)
  outputs : List String
  deriving DecidableEq

/-- Modelled from the spec: `PipelineDefinition` (§3): a name and an
ordered list of step invocations. -/
structure PipelineDefinition where
  name : String
  invocations : List StepInvocation
  deriving DecidableEq

/-- The names of the invocations of a pipeline, in declaration order. -/
def stepNames (invs : List StepInvocation) : List String :=
  invs.map (fun i => i.stepName)

/-- Modelled from the spec: the Step Registry (§4.1), keyed by step name
with insertion order preserved; `register` inserts or replaces the entry
under the definition's name. -/
def register (reg : List (String × StepDefinition)) (d : StepDefinition) :
    List (String × StepDefinition) :=
  if reg.any (fun e => e.1 == d.name) then
    reg.map (fun e => if e.1 == d.name then (d.name, d) else e)
  else
    reg ++ [(d.name, d)]

/-- Modelled from the spec: `lookup` (§4.1); fails with `UnknownStep` if
the name is absent. -/
def lookup (reg : List (String × StepDefinition)) (n : String) :
    Except OrchError StepDefinition :=
  match reg.find? (fun e => e.1 == n) with
  | some e => .ok e.2
  | none => .error .unknownStep

/-- Whether invocation `inv` consumes some output of the producer named
`p`. -/
def consumesFrom (inv : StepInvocation) (p : String) : Bool :=
  inv.bindings.any (fun b =>
    match b.2 with
    | .output q _ => q == p
    | .literal _ => false)

/-- An invocation is ready once every producer it consumes from that is
itself an invocation of the pipeline has already been placed. -/
def ready (names placed : List String) (inv : StepInvocation) : Bool :=
  inv.bindings.all (fun b =>
    match b.2 with
    | .literal _ => true
    | .output p _ => !(names.contains p) || placed.contains p)

/-- First ready invocation in declaration order, together with the
remaining invocations; `none` if no invocation is ready. -/
def pickReady (names placed : List String) :
    List StepInvocation → Option (StepInvocation × List StepInvocation)
  | [] => none
  | inv :: rest =>
    if ready names placed inv then some (inv, rest)
    else
      match pickReady names placed rest with
      | some (x, rest') => some (x, inv :: rest')
      | none => none

/-- Modelled from the spec: the deterministic topological ordering of
§4.2 — repeatedly emit the first invocation, in declaration order, all of
whose in-pipeline producers are already placed; `none` when the
dependency graph blocks every remaining invocation (a cycle). -/
def topoAux (names : List String) :
    Nat → List StepInvocation → List String → Option (List StepInvocation)
  | _, [], _ => some []
  | 0, _ :: _, _ => none
  | fuel + 1, pending, placed =>
    match pickReady names placed pending with
    | none => none
    | some (inv, rest) =>
      (topoAux names fuel rest (inv.stepName :: placed)).map
        (fun out => inv :: out)

/-- Modelled from the spec: `topologicalOrder` (§4.2) — deterministic,
ties broken by declaration order in the invocation list. -/
def topologicalOrder (p : PipelineDefinition) : Option (List StepInvocation) :=
  topoAux (stepNames p.invocations) p.invocations.length p.invocations []

/-- Whether some invocation named `p` declares an output named `out`. -/
def producesOutput (invs : List StepInvocation) (p out : String) : Bool :=
  invs.any (fun inv => inv.stepName == p && inv.outputs.contains out)

/-- Every output binding references an output that some invocation of the
set actually produces. -/
def bindingsResolve (invs : List StepInvocation) : Bool :=
  invs.all (fun inv => inv.bindings.all (fun b =>
    match b.2 with
    | .literal _ => true
    | .output p out => producesOutput invs p out))

/-- Every invocation names a registered step. -/
def stepsKnown (reg : List (String × StepDefinition))
    (invs : List StepInvocation) : Bool :=
  invs.all (fun inv => reg.any (fun e => e.1 == inv.stepName))

/-- Modelled from the spec: `build` (§4.2) performs topological
validation; it fails with `CyclicPipeline` on a binding cycle,
`UnresolvedBinding` if an input references a non-existent upstream
output, and `UnknownStep` if an invocation names an unregistered step. -/
def build (reg : List (String × StepDefinition)) (nm : String)
    (invs : List StepInvocation) : Except OrchError PipelineDefinition :=
  if (topoAux (stepNames invs) invs.length invs []).isNone then
    .error .cyclicPipeline
  else if !(bindingsResolve invs) then
    .error .unresolvedBinding
  else if !(stepsKnown reg invs) then
    .error .unknownStep
  else
    .ok ⟨nm, invs⟩

/-- Dependency edge of the binding graph: `Edge invs a b` holds when `a`
names an invocation of the set and the invocation named `b` consumes one
of `a`'s outputs. -/
def Edge (invs : List StepInvocation) (a b : String) : Prop :=
  a ∈ stepNames invs ∧
    ∃ inv ∈ invs, inv.stepName = b ∧ consumesFrom inv a = true

instance (invs : List StepInvocation) (a b : String) :
    Decidable (Edge invs a b) := by
  unfold Edge
  infer_instance

/-- The binding graph contains a (direct or transitive) cycle. -/
def HasCycle (invs : List StepInvocation) : Prop :=
  ∃ x, Relation.TransGen (Edge invs) x x

/-- Two invocations are independent when neither (transitively) consumes
an output of the other. -/
def Independent (invs : List StepInvocation) (x y : StepInvocation) : Prop :=
  ¬ Relation.TransGen (Edge invs) x.stepName y.stepName ∧
    ¬ Relation.TransGen (Edge invs) y.stepName x.stepName

/-- Index of the first occurrence of a name in a list (length of the list
if absent). -/
def namePos (a : String) : List String → Nat
  | [] => 0
  | x :: xs => if x == a then 0 else namePos a xs + 1

/-- The claimed tie-break property of `topologicalOrder`: any two
independent invocations appear in the output in declaration order. -/
def declOrderStable (p : PipelineDefinition) : Prop :=
  ∀ out, topologicalOrder p = some out →
    ∀ x ∈ p.invocations, ∀ y ∈ p.invocations,
      namePos x.stepName (stepNames p.invocations) <
          namePos y.stepName (stepNames p.invocations) →
        Independent p.invocations x y →
        namePos x.stepName (stepNames out) < namePos y.stepName (stepNames out)

/-- Per-step status of the run executor's state machine (§4.3). -/
inductive StepStatus where
  | pending
  | running
  | succeeded
  | failed
  | skipped
  deriving DecidableEq

/-- Overall status of a run (§4.3); `partFailed` renders the spec's
`partially-failed`. -/
inductive RunStatus where
  | pending
  | running
  | succeeded
  | failed
  | partFailed
  deriving DecidableEq

/-- Status of a step name in a status map (first matching entry). -/
def statusOf (m : List (String × StepStatus)) (k : String) :
    Option StepStatus :=
  (m.find? (fun e => e.1 == k)).map (fun e => e.2)

/-- Overwrite the status stored under key `k`. -/
def setStatus (m : List (String × StepStatus)) (k : String)
    (v : StepStatus) : List (String × StepStatus) :=
  m.map (fun e => if e.1 == k then (k, v) else e)

/-- All producers this invocation consumes from have succeeded. -/
def producersSucceeded (m : List (String × StepStatus))
    (inv : StepInvocation) : Bool :=
  inv.bindings.all (fun b =>
    match b.2 with
    | .literal _ => true
    | .output p _ => statusOf m p == some .succeeded)

/-- Modelled from the spec: the run executor's step loop (§4.3) — steps
are dispatched in the given order; a step whose bound producers all
succeeded runs its entry logic (outcome given by the oracle `oc`) and is
marked `succeeded` or `failed`; otherwise it and is marked `skipped`. -/
def execStepsFrom (oc : String → Bool) :
    List StepInvocation → List (String × StepStatus) →
      List (String × StepStatus)
  | [], m => m
  | inv :: rest, m =>
    execStepsFrom oc rest (setStatus m inv.stepName
      (if producersSucceeded m inv then
        (if oc inv.stepName then .succeeded else .failed)
       else .skipped))

/-- Every step of the run starts `pending`. -/
def initStatuses (order : List StepInvocation) :
    List (String × StepStatus) :=
  order.map (fun inv => (inv.stepName, StepStatus.pending))

/-- Final step statuses of a run executed in the given order. -/
def runSteps (oc : String → Bool) (order : List StepInvocation) :
    List (String × StepStatus) :=
  execStepsFrom oc order (initStatuses order)

/-- Modelled from the spec: the overall run status (§4.3) — `succeeded`
when every step succeeded, otherwise `partially-failed` when at least one
step succeeded, else `failed`. -/
def overall (m : List (String × StepStatus)) : RunStatus :=
  if m.all (fun e => e.2 == StepStatus.succeeded) then .succeeded
  else if m.any (fun e => e.2 == StepStatus.succeeded) then .partFailed
  else .failed

/-- A point-in-time view of a run: overall run status plus the status of
every step. -/
structure Snapshot where
  run : RunStatus
  steps : List (String × StepStatus)
  deriving DecidableEq

/-- The step transitions allowed by the state machine of §4.3:
`pending → running → (succeeded | failed | skipped)`, a non-executed step
may move `pending → skipped` directly, and a status may stay put. -/
def allowedStep (s t : StepStatus) : Prop :=
  s = t ∨ (s = .pending ∧ t = .running) ∨
    (s = .running ∧ (t = .succeeded ∨ t = .failed ∨ t = .skipped)) ∨
    (s = .pending ∧ t = .skipped)

/-- The run transitions allowed by the state machine of §4.3:
`pending → running → (succeeded | failed | partially-failed)`, or stay
put. -/
def allowedRun (s t : RunStatus) : Prop :=
  s = t ∨ (s = .pending ∧ t = .running) ∨
    (s = .running ∧ (t = .succeeded ∨ t = .failed ∨ t = .partFailed))

/-- Pointwise allowed transition between two step-status maps over the
same keys. -/
def stepsAllowed (m₁ m₂ : List (String × StepStatus)) : Prop :=
  List.Forall₂ (fun e f => e.1 = f.1 ∧ allowedStep e.2 f.2) m₁ m₂

/-- Allowed transition between two run snapshots. -/
def allowedSnap (a b : Snapshot) : Prop :=
  allowedRun a.run b.run ∧ stepsAllowed a.steps b.steps

/-- Modelled from the spec: the intermediate step-status maps produced by
the executor's loop (§4.3) — an executed step becomes `running` and then
terminal; a step whose producer did not succeed becomes `skipped`
directly. -/
def stepSnapshots (oc : String → Bool) :
    List StepInvocation → List (String × StepStatus) →
      List (List (String × StepStatus))
  | [], _ => []
  | inv :: rest, m =>
    if producersSucceeded m inv then
      setStatus m inv.stepName .running ::
        setStatus m inv.stepName
            (if oc inv.stepName then .succeeded else .failed) ::
          stepSnapshots oc rest
            (setStatus m inv.stepName
              (if oc inv.stepName then .succeeded else .failed))
    else
      setStatus m inv.stepName .skipped ::
        stepSnapshots oc rest (setStatus m inv.stepName .skipped)

/-- Modelled from the spec: the full trace of one run (§4.3) — the run is
created `pending`, transitions to `running`, the steps execute in order,
and the run finally takes its overall terminal status. -/
def execTrace (oc : String → Bool) (order : List StepInvocation) :
    List Snapshot :=
  (Snapshot.mk .pending (initStatuses order) ::
      (initStatuses order :: stepSnapshots oc order (initStatuses order)).map
        (fun m => Snapshot.mk .running m)) ++
    [Snapshot.mk (overall (runSteps oc order)) (runSteps oc order)]

/-- Modelled from the spec: `StepRunRecord` (§3). -/
structure StepRunRecord where
  stepName : String
  status : StepStatus
  resolvedParams : List (String × String)
  artifacts : List String
  errorDetail : Option String
  deriving DecidableEq

/-- Modelled from the spec: `RunRecord` (§3). -/
structure RunRecord where
  runId : String
  pipelineName : String
  startTime : Nat
  endTime : Nat
  status : RunStatus
  steps : List StepRunRecord
  deriving DecidableEq

/-- A run status is terminal when it is succeeded, failed or
partially-failed. -/
def RunStatus.isTerminal : RunStatus → Bool
  | .succeeded => true
  | .failed => true
  | .partFailed => true
  | _ => false

/-- The run history indexed for retrieval. -/
structure ExecState where
  runs : List RunRecord
  deriving DecidableEq

/-- Modelled from the spec: `status(runId)` (§4.3) — a query that returns
the stored run record, failing with `UnknownRun` if absent; it does not
mutate the state. -/
def statusQuery (st : ExecState) (runId : String) :
    ExecState × Except OrchError RunRecord :=
  match st.runs.find? (fun r => r.runId == runId) with
  | some r => (st, .ok r)
  | none => (st, .error .unknownRun)

/-- Liveness state of a serving endpoint (§3). -/
inductive EndpointState where
  | unloaded
  | loading
  | ready
  | error
  deriving DecidableEq

/-- Modelled from the spec: `ServiceEndpoint` (§3, §4.4), carrying the
served step's declared input arity (9 features for the penguin model). -/
structure ServiceEndpoint where
  stepName : String
  artifact : String
  state : EndpointState
  inputArity : Nat
  deriving DecidableEq

/-- Modelled from the spec: `invoke` (§4.4) — fails with
`EndpointNotReady` unless the endpoint is ready, with `InvalidPayload` if
some instance's feature count differs from the declared input arity, and
otherwise forwards the instances to the step's entry logic (`model`, one
prediction per instance) and returns its output unchanged. -/
def invoke (model : List ℚ → ℚ) (ep : ServiceEndpoint)
    (instances : List (List ℚ)) : Except OrchError (List ℚ) :=
  if !(ep.state == .ready) then .error .endpointNotReady
  else if instances.any (fun inst => inst.length != ep.inputArity) then
    .error .invalidPayload
  else .ok (instances.map model)

/-- Duplicate-free check used by step-definition validation. -/
def nodupB : List String → Bool
  | [] => true
  | x :: xs => !(xs.contains x) && nodupB xs

/-- Modelled from the spec: `register` validation (§4.1) — a definition is
invalid when its entry reference is empty or its declared inputs or
outputs contain duplicate names. -/
def validStepDefinition (d : StepDefinition) : Bool :=
  !(d.entry == "") && nodupB d.inputs && nodupB d.outputs

/-- Modelled from the spec: the Project Store's state (§2, §4.5) — the
registered steps, the named pipelines and the run-history index. -/
structure ProjectState where
  registry : List (String × StepDefinition)
  pipelines : List (String × PipelineDefinition)
  runs : List RunRecord
  deriving DecidableEq

/-- Modelled from the spec: `register` as a state transition (§4.1, §7) —
an invalid definition is rejected with `InvalidStepDefinition` and the
state is returned untouched. -/
def registerOp (s : ProjectState) (d : StepDefinition) :
    ProjectState × Option OrchError :=
  if !(validStepDefinition d) then (s, some .invalidStepDefinition)
  else (⟨register s.registry d, s.pipelines, s.runs⟩, none)

/-- Some invocation leaves a required (default-free) parameter of its
step definition unbound (§4.2 `validateParameters`). -/
def missingParams (reg : List (String × StepDefinition))
    (invs : List StepInvocation) : Bool :=
  invs.any (fun inv =>
    match lookup reg inv.stepName with
    | .ok d =>
      d.params.any (fun pr =>
        pr.2.isNone && !(inv.params.any (fun q => q.1 == pr.1)))
    | .error _ => false)

/-- Modelled from the spec: `build` plus `validateParameters` as a state
transition (§4.2, §7) — on any structural error the state is returned
untouched; on success the validated pipeline is recorded. -/
def buildOp (s : ProjectState) (nm : String) (invs : List StepInvocation) :
    ProjectState × Option OrchError :=
  match build s.registry nm invs with
  | .error e => (s, some e)
  | .ok pd =>
    if missingParams s.registry invs then (s, some .missingParameter)
    else (⟨s.registry, s.pipelines ++ [(nm, pd)], s.runs⟩, none)

/-- Bind call arguments against declared parameters: an explicit argument
wins, else the declared default applies, else the call cannot be formed.
This renders Python keyword-argument binding for the notebook's pipeline
entry point. -/
def bindArgs (decl : List (String × Option String))
    (args : List (String × String)) : Option (List (String × String)) :=
  match decl with
  | [] => some []
  | (n, dflt) :: rest =>
    match args.find? (fun a => a.1 == n), dflt with
    | some a, _ => (bindArgs rest args).map (fun r => (n, a.2) :: r)
    | none, some v => (bindArgs rest args).map (fun r => (n, v) :: r)
    | none, none => none

/-- The pipeline entry point's declared parameters, from the notebook's
`src/pipeline.py` cell: `def pipeline(dataset: str, label_column: str =
"species")` — `dataset` is required with no default, `label_column`
defaults to `"species"`. -/
def pipelineParams : List (String × Option String) :=
  [("dataset", none), ("label_column", some "species")]

/-- The model-input payload of the notebook (`MODEL_INPUT`): five
instances of nine features each. -/
def modelInput : List (List ℚ) :=
  [[0, 1, 0, 1, 0, 39.5, 16.7, 178, 3250],
   [1, 0, 0, 1, 0, 46.9, 14.6, 222, 4875],
   [0, 0, 1, 0, 1, 42.1, 19.1, 195, 4000],
   [0, 1, 0, 1, 0, 49.8, 17.3, 198, 3675],
   [1, 0, 0, 0, 1, 41.1, 18.2, 192, 4050]]

/-- The exercise's three-step invocation list: `data`, then `train`
consuming `data`'s processed dataset, then `serving` consuming `train`'s
model (spec Scenario 1). -/
def penguinInvs : List StepInvocation :=
  [⟨"data", [("label_column", "species")], [("dataset", .literal "palmer_penguins.csv")], ["processed"]⟩,
   ⟨"train", [], [("dataset", .output "data" "processed")], ["model"]⟩,
   ⟨"serving", [], [("model_path", .output "train" "model")], []⟩]

/-- The exercise's pipeline built from `penguinInvs`. -/
def penguinPipeline : PipelineDefinition :=
  ⟨"penguin-classification-pipeline", penguinInvs⟩

/-- The exercise's step registry: `data` and `train` are batch jobs,
`serving` is a service. -/
def penguinRegistry : List (String × StepDefinition) :=
  [("data", ⟨"data", .batch, "src/data.py", [("label_column", some "species")], ["dataset"], ["processed"]⟩),
   ("train", ⟨"train", .batch, "src/train.py", [], ["dataset"], ["model"]⟩),
   ("serving", ⟨"serving", .service, "src/serve.py", [], ["model_path"], []⟩)]

/-- Outcome oracle of spec Scenario 2: `train`'s entry logic raises a
failure, every other step's entry logic succeeds. -/
def trainFails : String → Bool :=
  fun s => !(s == "train")

/-- A three-invocation pipeline witnessing that declaration order cannot
in general be preserved between independent invocations: `alpha` consumes
`gamma`'s output, `beta` is independent of both, `gamma` is declared
last. -/
def crossInvs : List StepInvocation :=
  [⟨"alpha", [], [("x", .output "gamma" "o")], []⟩,
   ⟨"beta", [], [], []⟩,
   ⟨"gamma", [], [], ["o"]⟩]

/-- Pipeline over `crossInvs`. -/
def crossPipeline : PipelineDefinition :=
  ⟨"cross", crossInvs⟩

/-- A replacement definition for the `train` step, used to exercise
re-registration. -/
def trainV2 : StepDefinition :=
  ⟨"train", .batch, "src/train_v2.py", [("epochs", some "10")], ["dataset"], ["model"]⟩

/-- A malformed step definition: its entry reference is empty. -/
def emptyEntryDef : StepDefinition :=
  ⟨"broken", .batch, "", [], [], []⟩

/-- A project holding the exercise's registry and nothing else. -/
def initialProject : ProjectState :=
  ⟨penguinRegistry, [], []⟩

/-- A run record that has reached a terminal status. -/
def doneRun : RunRecord :=
  ⟨"run-1", "penguin-classification-pipeline", 0, 5, .partFailed, []⟩

/-- Run history holding the single terminal run `doneRun`. -/
def execSt : ExecState :=
  ⟨[doneRun]⟩

/-- A two-invocation binding cycle: `cycA` consumes `cycB`'s output and
`cycB` consumes `cycA`'s output. -/
def cycleInvs : List StepInvocation :=
  [⟨"cycA", [], [("i", .output "cycB" "ob")], ["oa"]⟩,
   ⟨"cycB", [], [("i", .output "cycA" "oa")], ["ob"]⟩]

/-- Two invocations where the consumer `revB` is declared before its
producer `revA` (spec Scenario 5). -/
def revInvs : List StepInvocation :=
  [⟨"revB", [], [("i", .output "revA" "oa")], []⟩,
   ⟨"revA", [], [], ["oa"]⟩]

/-- Registry covering the declaration-order scenario's two steps. -/
def revRegistry : List (String × StepDefinition) :=
  [("revA", ⟨"revA", .batch, "a.py", [], [], ["oa"]⟩),
   ("revB", ⟨"revB", .batch, "b.py", [], ["i"], []⟩)]

/-- Two invocations with no bindings at all: fully independent. -/
def indepInvs : List StepInvocation :=
  [⟨"u", [], [], []⟩, ⟨"v", [], [], []⟩]

/-! ## Theorems -/

/-- After replacing every entry keyed by `d.name`, looking up `d.name`
yields exactly `d`, provided some entry carried that key. -/
theorem lookup_mapReplace (d : StepDefinition) :
    ∀ reg : List (String × StepDefinition),
      reg.any (fun e => e.1 == d.name) = true →
      lookup (reg.map (fun e => if e.1 == d.name then (d.name, d) else e))
          d.name = .ok d := by
  intro reg h
  induction reg with
  | nil => simp at h
  | cons e rest ih =>
    by_cases he : e.1 == d.name
    · simp [lookup, List.find?, he]
    · simp only [List.any_cons, he, Bool.false_or] at h
      simpa [lookup, List.find?, he] using ih h

/-- C6: re-registering a step under a name already present replaces the
stored definition, and a subsequent lookup of that name returns exactly
the new definition. -/
theorem claim_C6 (reg : List (String × StepDefinition)) (d : StepDefinition)
    (h : reg.any (fun e => e.1 == d.name) = true) :
    lookup (register reg d) d.name = .ok d := by
  unfold register
  rw [if_pos h]
  exact lookup_mapReplace d reg h

/-- Witness for C6: re-registering `train` in the exercise registry makes
lookup return the new definition. -/
theorem claim_C6_witness :
    lookup (register penguinRegistry trainV2) trainV2.name = .ok trainV2 :=
  claim_C6 penguinRegistry trainV2 (by decide)

/-- C7: a structural/definition error raised by `register` or `build`
leaves the project state unchanged — no registry entry, pipeline or run
record is created. -/
theorem claim_C7 :
    (∀ (s : ProjectState) (d : StepDefinition) (e : OrchError),
      (registerOp s d).2 = some e → (registerOp s d).1 = s) ∧
    (∀ (s : ProjectState) (nm : String) (invs : List StepInvocation)
      (e : OrchError),
      (buildOp s nm invs).2 = some e → (buildOp s nm invs).1 = s) := by
  constructor
  · intro s d e h
    unfold registerOp at *
    by_cases hv : validStepDefinition d
    · simp [hv] at h
    · simp [hv]
  · intro s nm invs e h
    unfold buildOp at *
    cases hb : build s.registry nm invs with
    | error err => simp [hb]
    | ok pd =>
      by_cases hm : missingParams s.registry invs
      · simp [hb, hm]
      · simp [hb, hm] at h

/-- Witness for C7: registering a definition with an empty entry
reference fails and leaves the project untouched. -/
theorem claim_C7_witness :
    (registerOp initialProject emptyEntryDef).1 = initialProject :=
  claim_C7.1 initialProject emptyEntryDef .invalidStepDefinition (by decide)

/-- C8: a status query does not mutate the run history, and after a run
reaches a terminal status repeated queries return identical run-record
content. -/
theorem claim_C8 (st : ExecState) (runId : String) (r : RunRecord)
    (h : (statusQuery st runId).2 = .ok r)
    (_hterm : r.status.isTerminal = true) :
    (statusQuery st runId).1 = st ∧
      (statusQuery (statusQuery st runId).1 runId).2 = .ok r := by
  unfold statusQuery at *
  cases hf : st.runs.find? (fun q => q.runId == runId) with
  | none => simp [hf] at h
  | some q => simp_all [hf]

/-- Witness for C8: querying the terminal run `run-1` twice returns the
same record and leaves the history unchanged. -/
theorem claim_C8_witness :
    (statusQuery execSt "run-1").1 = execSt ∧
      (statusQuery (statusQuery execSt "run-1").1 "run-1").2 = .ok doneRun :=
  claim_C8 execSt "run-1" doneRun (by rfl) (by rfl)

/-- C5: `invoke` fails with `EndpointNotReady` exactly when the endpoint
is not ready; when ready it fails with `InvalidPayload` exactly when some
instance's feature count differs from the declared input arity, and
otherwise returns the step's output unchanged, one prediction per
instance. -/
theorem claim_C5 (model : List ℚ → ℚ) (ep : ServiceEndpoint)
    (instances : List (List ℚ)) :
    ((invoke model ep instances = .error .endpointNotReady) ↔
      ep.state ≠ .ready) ∧
    (ep.state = .ready →
      ((invoke model ep instances = .error .invalidPayload) ↔
        ∃ inst ∈ instances, inst.length ≠ ep.inputArity)) ∧
    (ep.state = .ready →
      (∀ inst ∈ instances, inst.length = ep.inputArity) →
      invoke model ep instances = .ok (instances.map model) ∧
        (instances.map model).length = instances.length) := by
  by_cases hst : ep.state = .ready
  · by_cases hany : instances.any (fun inst => inst.length != ep.inputArity)
    · refine ⟨?_, ?_, ?_⟩
      · simp [invoke, hst, hany]
      · intro _
        simp only [List.any_eq_true, bne_iff_ne] at hany
        simp [invoke, hst, hany]
      · intro _ hall
        simp only [List.any_eq_true, bne_iff_ne] at hany
        obtain ⟨inst, hmem, hne⟩ := hany
        exact absurd (hall inst hmem) hne
    · refine ⟨?_, ?_, ?_⟩
      · simp [invoke, hst, hany]
      · intro _
        have hany' : ∀ inst ∈ instances, inst.length = ep.inputArity := by
          have h0 : instances.any
              (fun inst => inst.length != ep.inputArity) = false := by
            simpa using hany
          simp only [List.any_eq_false, bne_iff_ne, not_not] at h0
          exact h0
        constructor
        · intro hcontra
          have hok : invoke model ep instances = .ok (instances.map model) := by
            simp [invoke, hst, hany]
          rw [hok] at hcontra
          exact absurd hcontra (by simp)
        · rintro ⟨inst, hmem, hne⟩
          exact absurd (hany' inst hmem) hne
      · intro _ _
        refine ⟨by simp [invoke, hst, hany], by simp⟩
  · have hb : (ep.state == EndpointState.ready) = false := by
      simpa using hst
    refine ⟨?_, ?_, ?_⟩
    · simp [invoke, hb, hst]
    · intro h
      exact absurd h hst
    · intro h
      exact absurd h hst

/-- Witness for C5: invoking a ready endpoint of arity 9 with the
notebook's `MODEL_INPUT` payload returns the model output unchanged,
one prediction per instance. -/
theorem claim_C5_witness :
    invoke (fun _ => 0) ⟨"serving", "model", .ready, 9⟩ modelInput =
        .ok (modelInput.map (fun _ => 0)) ∧
      (modelInput.map (fun _ => (0 : ℚ))).length = modelInput.length :=
  (claim_C5 (fun _ => 0) ⟨"serving", "model", .ready, 9⟩ modelInput).2.2
    rfl (by decide)

/-- C10: every submission that supplies only `dataset` runs with label
column `"species"`, and a submission omitting `dataset` cannot be
formed. -/
theorem claim_C10 :
    (∀ ds : String, bindArgs pipelineParams [("dataset", ds)] =
      some [("dataset", ds), ("label_column", "species")]) ∧
    (∀ args : List (String × String), (∀ a ∈ args, a.1 ≠ "dataset") →
      bindArgs pipelineParams args = none) := by
  constructor
  · intro ds
    simp [bindArgs, pipelineParams, List.find?]
  · intro args h
    have hf : args.find? (fun a => a.1 == "dataset") = none := by
      rw [List.find?_eq_none]
      intro a ha
      simpa using h a ha
    simp [bindArgs, pipelineParams, hf]

/-- Witness for C10: a call supplying only the dataset path binds the
label column to `"species"`, and a call with no arguments cannot be
formed. -/
theorem claim_C10_witness :
    bindArgs pipelineParams [("dataset", "data/palmer_penguins.csv")] =
        some [("dataset", "data/palmer_penguins.csv"),
          ("label_column", "species")] ∧
      bindArgs pipelineParams [] = none :=
  ⟨claim_C10.1 "data/palmer_penguins.csv", claim_C10.2 [] (by simp)⟩

end Orch

namespace Orch

theorem statusOf_setStatus_self (m : List (String × StepStatus)) (k : String)
    (v : StepStatus) (h : (statusOf m k).isSome) :
    statusOf (setStatus m k v) k = some v := by
  induction m with
  | nil => simp [statusOf] at h
  | cons e rest ih =>
    by_cases he : (e.1 == k) = true
    · simp [statusOf, setStatus, List.find?, he]
    · have he' : (e.1 == k) = false := by simpa using he
      simp only [statusOf, setStatus, List.map_cons, he', if_false,
        Bool.false_eq_true] at h ⊢
      rw [List.find?] at h ⊢
      simp only [he'] at h ⊢
      exact ih h

theorem statusOf_setStatus_ne (m : List (String × StepStatus)) (k j : String)
    (v : StepStatus) (h : j ≠ k) :
    statusOf (setStatus m k v) j = statusOf m j := by
  induction m with
  | nil => rfl
  | cons e rest ih =>
    by_cases he : (e.1 == k) = true
    · have hek : e.1 = k := by simpa using he
      have hkj : (k == j) = false := by simp [Ne.symm h]
      simp only [statusOf, setStatus, List.map_cons, he, if_true] at ih ⊢
      rw [List.find?, List.find?]
      simp only [hkj, hek]
      exact ih
    · have he' : (e.1 == k) = false := by simpa using he
      by_cases hej : (e.1 == j) = true
      · simp [statusOf, setStatus, List.find?, he', hej]
      · have hej' : (e.1 == j) = false := by simpa using hej
        simp only [statusOf, setStatus, List.map_cons, he', if_false,
          Bool.false_eq_true] at ih ⊢
        rw [List.find?, List.find?]
        simp only [hej']
        exact ih

theorem exec_frame (oc : String → Bool) :
    ∀ (pending : List StepInvocation) (m : List (String × StepStatus))
      (j : String), (∀ inv ∈ pending, inv.stepName ≠ j) →
      statusOf (execStepsFrom oc pending m) j = statusOf m j := by
  intro pending
  induction pending with
  | nil => intro m j _; rfl
  | cons inv rest ih =>
    intro m j h
    have h1 : inv.stepName ≠ j := h inv (by simp)
    rw [execStepsFrom]
    rw [ih _ j (fun i hi => h i (List.mem_cons_of_mem _ hi))]
    exact statusOf_setStatus_ne m inv.stepName j _ (Ne.symm h1)

theorem statusOf_init (order : List StepInvocation) (k : String)
    (h : k ∈ stepNames order) :
    statusOf (initStatuses order) k = some .pending := by
  induction order with
  | nil => simp [stepNames] at h
  | cons inv rest ih =>
    by_cases he : (inv.stepName == k) = true
    · simp [statusOf, initStatuses, List.find?, he]
    · have he' : (inv.stepName == k) = false := by simpa using he
      have hk : k ∈ stepNames rest := by
        simp only [stepNames, List.map_cons, List.mem_cons] at h
        rcases h with h | h
        · exact absurd h.symm (by simpa using he)
        · simpa [stepNames] using h
      simp only [statusOf, initStatuses, List.map_cons] at ih ⊢
      rw [List.find?]
      simp only [he']
      exact ih hk

theorem exec_skipped (oc : String → Bool) :
    ∀ (pending : List StepInvocation) (m : List (String × StepStatus)),
      (stepNames pending).Nodup →
      (∀ k, k ∈ stepNames pending → statusOf m k = some .pending) →
      ∀ inv ∈ pending, ∀ nm p o, (nm, Binding.output p o) ∈ inv.bindings →
        statusOf (execStepsFrom oc pending m) p ≠ some .succeeded →
        statusOf (execStepsFrom oc pending m) inv.stepName = some .skipped := by
  intro pending
  induction pending with
  | nil => intro m _ _ inv hmem; simp at hmem
  | cons inv0 rest ih =>
    intro m hnd hpend inv hmem nm p o hb hp
    have hnames : stepNames (inv0 :: rest) = inv0.stepName :: stepNames rest := rfl
    rw [hnames, List.nodup_cons] at hnd
    obtain ⟨hhead, hnd'⟩ := hnd
    have hpend' : ∀ k, k ∈ stepNames rest →
        statusOf (setStatus m inv0.stepName
          (if producersSucceeded m inv0 then
            (if oc inv0.stepName then StepStatus.succeeded else .failed)
           else .skipped)) k = some .pending := by
      intro k hk
      have hkne : k ≠ inv0.stepName := by
        intro hcontra
        exact hhead (hcontra ▸ hk)
      rw [statusOf_setStatus_ne _ _ _ _ hkne]
      exact hpend k (by rw [hnames]; exact List.mem_cons_of_mem _ hk)
    rcases List.mem_cons.mp hmem with heq | hmemr
    · subst heq
      have hrestne : ∀ i ∈ rest, i.stepName ≠ inv.stepName := by
        intro i hi hcontra
        exact hhead (hcontra ▸ List.mem_map_of_mem _ hi)
      rw [execStepsFrom] at hp ⊢
      have hinit : statusOf m inv.stepName = some .pending :=
        hpend _ (by rw [hnames]; exact List.mem_cons_self _ _)
      have hmp : statusOf m p ≠ some .succeeded := by
        by_cases hpmem : p ∈ stepNames (inv :: rest)
        · rw [hpend p hpmem]; simp
        · have hne : ∀ i ∈ (inv :: rest), i.stepName ≠ p := by
            intro i hi hcontra
            exact hpmem (hcontra ▸ List.mem_map_of_mem _ hi)
          have hfr0 := exec_frame oc (inv :: rest) m p hne
          rw [execStepsFrom] at hfr0
          rw [hfr0] at hp
          exact hp
      have hps : producersSucceeded m inv = false := by
        by_contra hT
        have hT' : producersSucceeded m inv = true := by simpa using hT
        unfold producersSucceeded at hT'
        rw [List.all_eq_true] at hT'
        have hmine := hT' (nm, Binding.output p o) hb
        simp only [beq_iff_eq] at hmine
        exact hmp hmine
      rw [hps] at hp ⊢
      simp only [Bool.false_eq_true, if_false] at hp ⊢
      rw [exec_frame oc rest _ inv.stepName hrestne]
      exact statusOf_setStatus_self m _ _ (by rw [hinit]; rfl)
    · rw [execStepsFrom] at hp ⊢
      exact ih _ hnd' hpend' inv hmemr nm p o hb hp

theorem consumesFrom_elim (inv : StepInvocation) (a : String)
    (h : consumesFrom inv a = true) :
    ∃ nm o, (nm, Binding.output a o) ∈ inv.bindings := by
  unfold consumesFrom at h
  rw [List.any_eq_true] at h
  obtain ⟨⟨bn, bb⟩, hbm, hbv⟩ := h
  cases bb with
  | literal v => simp at hbv
  | output q o =>
    have hqa : q = a := by simpa using hbv
    subst hqa
    exact ⟨bn, o, hbm⟩

theorem exec_downstream (oc : String → Bool) (invs order : List StepInvocation)
    (hperm : invs.Perm order) (hnd : (stepNames order).Nodup)
    (a : String) (ha : statusOf (runSteps oc order) a ≠ some .succeeded) :
    ∀ t, Relation.TransGen (Edge invs) a t →
      statusOf (runSteps oc order) t = some .skipped := by
  intro t h
  induction h with
  | single hab =>
    obtain ⟨-, inv, hinv, hname, hcons⟩ := hab
    obtain ⟨nm, o, hb⟩ := consumesFrom_elim inv a hcons
    have hmem : inv ∈ order := hperm.mem_iff.mp hinv
    have hres := exec_skipped oc order (initStatuses order) hnd
      (fun k hk => statusOf_init order k hk) inv hmem nm a o hb ha
    rw [hname] at hres
    exact hres
  | @tail b c hab hbc ihab =>
    obtain ⟨-, inv, hinv, hname, hcons⟩ := hbc
    obtain ⟨nm, o, hb⟩ := consumesFrom_elim inv b hcons
    have hmem : inv ∈ order := hperm.mem_iff.mp hinv
    have ihab' : statusOf (execStepsFrom oc order (initStatuses order)) b =
        some .skipped := ihab
    have hres := exec_skipped oc order (initStatuses order) hnd
      (fun k hk => statusOf_init order k hk) inv hmem nm b o hb
      (by rw [ihab']; simp)
    rw [hname] at hres
    exact hres

end Orch

namespace Orch

theorem pickReady_perm (names placed : List String) :
    ∀ (l : List StepInvocation) (x : StepInvocation)
      (rest : List StepInvocation),
      pickReady names placed l = some (x, rest) → l.Perm (x :: rest) := by
  intro l
  induction l with
  | nil => intro x rest h; simp [pickReady] at h
  | cons inv tl ih =>
    intro x rest h
    unfold pickReady at h
    by_cases hr : ready names placed inv = true
    · rw [if_pos hr] at h
      injection h with h
      injection h with h1 h2
      subst h1; subst h2
      exact List.Perm.refl _
    · rw [if_neg hr] at h
      cases hpr : pickReady names placed tl with
      | none => rw [hpr] at h; cases h
      | some pr =>
        obtain ⟨y, rest'⟩ := pr
        rw [hpr] at h
        injection h with h
        injection h with h1 h2
        subst h1; subst h2
        have hperm := ih y rest' hpr
        exact (hperm.cons inv).trans (List.Perm.swap y inv rest')
    
theorem topoAux_perm (names : List String) :
    ∀ (fuel : Nat) (pending : List StepInvocation) (placed : List String)
      (out : List StepInvocation),
      topoAux names fuel pending placed = some out → pending.Perm out := by
  intro fuel
  induction fuel with
  | zero =>
    intro pending placed out h
    cases pending with
    | nil =>
      rw [topoAux] at h
      injection h with h
      subst h
      exact List.Perm.refl _
    | cons i tl => cases h
  | succ n ih =>
    intro pending placed out h
    cases pending with
    | nil =>
      rw [topoAux] at h
      injection h with h
      subst h
      exact List.Perm.refl _
    | cons i tl =>
      simp only [topoAux] at h
      cases hpick : pickReady names placed (i :: tl) with
      | none => rw [hpick] at h; cases h
      | some pr =>
        obtain ⟨x, rest⟩ := pr
        rw [hpick] at h
        dsimp only at h
        cases hrec : topoAux names n rest (x.stepName :: placed) with
        | none => rw [hrec] at h; cases h
        | some out' =>
          rw [hrec] at h
          rw [Option.map_some'] at h
          injection h with h
          subst h
          exact (pickReady_perm names placed _ x rest hpick).trans
            ((ih rest _ out' hrec).cons x)

end Orch

namespace Orch

/-- C1: if a step's bound input producer did not succeed, that step and
every step downstream of it end `skipped`, and the overall run status is
`partially-failed` when at least one step succeeded and `failed`
otherwise. -/
theorem claim_C1 (oc : String → Bool) (pd : PipelineDefinition)
    (order : List StepInvocation)
    (hnd : (stepNames pd.invocations).Nodup)
    (htopo : topologicalOrder pd = some order)
    (inv : StepInvocation) (hinv : inv ∈ order)
    (nm p o : String) (hb : (nm, Binding.output p o) ∈ inv.bindings)
    (hp : statusOf (runSteps oc order) p ≠ some .succeeded) :
    statusOf (runSteps oc order) inv.stepName = some .skipped ∧
    (∀ t, Relation.TransGen (Edge pd.invocations) inv.stepName t →
      statusOf (runSteps oc order) t = some .skipped) ∧
    ((∃ e ∈ runSteps oc order, e.2 = StepStatus.succeeded) →
      overall (runSteps oc order) = .partFailed) ∧
    ((∀ e ∈ runSteps oc order, e.2 ≠ StepStatus.succeeded) →
      overall (runSteps oc order) = .failed) := by
  have hperm : pd.invocations.Perm order :=
    topoAux_perm _ _ _ _ _ htopo
  have hpermN : (stepNames pd.invocations).Perm (stepNames order) := by
    unfold stepNames
    exact hperm.map _
  have hndo : (stepNames order).Nodup := hpermN.nodup_iff.mp hnd
  have hskip : statusOf (runSteps oc order) inv.stepName = some .skipped :=
    exec_skipped oc order (initStatuses order) hndo
      (fun k hk => statusOf_init order k hk) inv hinv nm p o hb hp
  have hmemskip : (inv.stepName, StepStatus.skipped) ∈ runSteps oc order := by
    unfold statusOf at hskip
    cases hf : List.find? (fun e => e.1 == inv.stepName)
        (runSteps oc order) with
    | none => rw [hf] at hskip; cases hskip
    | some e =>
      rw [hf] at hskip
      have he2 : e.2 = StepStatus.skipped := by
        injection hskip
      have he1 : e.1 = inv.stepName := by
        have := List.find?_some hf
        simpa using this
      have hmem := List.mem_of_find?_eq_some hf
      have : e = (inv.stepName, StepStatus.skipped) := by
        cases e
        simp_all
      rw [← this]
      exact hmem
  refine ⟨hskip, ?_, ?_, ?_⟩
  · intro t ht
    exact exec_downstream oc pd.invocations order hperm hndo inv.stepName
      (by rw [hskip]; simp) t ht
  · rintro ⟨e, he, hesucc⟩
    have hall : (runSteps oc order).all
        (fun e => e.2 == StepStatus.succeeded) = false := by
      rw [List.all_eq_false]
      exact ⟨(inv.stepName, StepStatus.skipped), hmemskip, by simp⟩
    have hany : (runSteps oc order).any
        (fun e => e.2 == StepStatus.succeeded) = true := by
      rw [List.any_eq_true]
      exact ⟨e, he, by simp [hesucc]⟩
    simp [overall, hall, hany]
  · intro h
    have hall : (runSteps oc order).all
        (fun e => e.2 == StepStatus.succeeded) = false := by
      rw [List.all_eq_false]
      exact ⟨(inv.stepName, StepStatus.skipped), hmemskip, by simp⟩
    have hany : (runSteps oc order).any
        (fun e => e.2 == StepStatus.succeeded) = false := by
      rw [List.any_eq_false]
      intro e he
      simpa using h e he
    simp [overall, hall, hany]

/-- Witness for C1 (spec Scenario 2): with `train` failing, `serving` is
skipped and the run ends `partially-failed` since `data` succeeded. -/
theorem claim_C1_witness :
    statusOf (runSteps trainFails penguinInvs) "serving" = some .skipped ∧
      overall (runSteps trainFails penguinInvs) = .partFailed := by
  have h := claim_C1 trainFails penguinPipeline penguinInvs (by decide)
    (by decide)
    ⟨"serving", [], [("model_path", .output "train" "model")], []⟩
    (by decide) "model_path" "train" "model" (by decide) (by decide)
  exact ⟨h.1, h.2.2.1 ⟨("data", .succeeded), by decide, rfl⟩⟩

end Orch

namespace Orch

theorem pickReady_ready (names placed : List String) :
    ∀ (l : List StepInvocation) (x : StepInvocation)
      (rest : List StepInvocation),
      pickReady names placed l = some (x, rest) →
      ready names placed x = true := by
  intro l
  induction l with
  | nil => intro x rest h; simp [pickReady] at h
  | cons inv tl ih =>
    intro x rest h
    unfold pickReady at h
    by_cases hr : ready names placed inv = true
    · rw [if_pos hr] at h
      injection h with h
      injection h with h1 _
      subst h1
      exact hr
    · rw [if_neg hr] at h
      cases hpr : pickReady names placed tl with
      | none => rw [hpr] at h; cases h
      | some pr =>
        obtain ⟨y, rest'⟩ := pr
        rw [hpr] at h
        injection h with h
        injection h with h1 _
        subst h1
        exact ih y rest' hpr

theorem pickReady_none (names placed : List String) :
    ∀ (l : List StepInvocation), pickReady names placed l = none →
      ∀ i ∈ l, ready names placed i = false := by
  intro l
  induction l with
  | nil => intro _ i hi; simp at hi
  | cons inv tl ih =>
    intro h i hi
    unfold pickReady at h
    by_cases hr : ready names placed inv = true
    · rw [if_pos hr] at h; cases h
    · rw [if_neg hr] at h
      cases hpr : pickReady names placed tl with
      | some pr => obtain ⟨y, rest'⟩ := pr; rw [hpr] at h; cases h
      | none =>
        rcases List.mem_cons.mp hi with heq | hmem
        · subst heq
          simpa using hr
        · exact ih hpr i hmem

theorem namePos_append_left (a : String) :
    ∀ (l1 l2 : List String), a ∈ l1 →
      namePos a (l1 ++ l2) < l1.length := by
  intro l1
  induction l1 with
  | nil => intro l2 h; simp at h
  | cons x xs ih =>
    intro l2 h
    by_cases hx : (x == a) = true
    · simp [namePos, hx]
    · have hx' : (x == a) = false := by simpa using hx
      have hmem : a ∈ xs := by
        rcases List.mem_cons.mp h with heq | hmem
        · exact absurd heq.symm (by simpa using hx)
        · exact hmem
      have := ih l2 hmem
      simp only [List.cons_append, namePos, hx', if_false, List.length_cons,
        Bool.false_eq_true, List.append_eq]
      omega

theorem namePos_append_right (b : String) :
    ∀ (l1 l2 : List String), b ∉ l1 →
      namePos b (l1 ++ l2) = l1.length + namePos b l2 := by
  intro l1
  induction l1 with
  | nil => intro l2 _; simp
  | cons x xs ih =>
    intro l2 h
    have hx : (x == b) = false := by
      have : x ≠ b := fun hc => h (hc ▸ List.mem_cons_self x xs)
      simpa using this
    have hnot : b ∉ xs := fun hc => h (List.mem_cons_of_mem _ hc)
    simp only [List.cons_append, namePos, hx, if_false, List.length_cons,
      Bool.false_eq_true, List.append_eq, ih l2 hnot]
    omega

theorem namePos_cons_self (b : String) (l : List String) :
    namePos b (b :: l) = 0 := by
  simp [namePos]

theorem topoAux_respects (names : List String) :
    ∀ (fuel : Nat) (pending : List StepInvocation) (placed : List String)
      (out : List StepInvocation),
      topoAux names fuel pending placed = some out →
      ∀ (pre : List StepInvocation) (inv : StepInvocation)
        (post : List StepInvocation), out = pre ++ inv :: post →
        ∀ p, consumesFrom inv p = true → p ∈ names →
          p ∈ placed ∨ p ∈ stepNames pre := by
  intro fuel
  induction fuel with
  | zero =>
    intro pending placed out h pre inv post hsplit p hcons hp
    cases pending with
    | nil =>
      rw [topoAux] at h
      injection h with h
      subst h
      exact absurd hsplit.symm (by simp)
    | cons i tl => cases h
  | succ n ih =>
    intro pending placed out h pre inv post hsplit p hcons hp
    cases pending with
    | nil =>
      rw [topoAux] at h
      injection h with h
      subst h
      exact absurd hsplit.symm (by simp)
    | cons i tl =>
      simp only [topoAux] at h
      cases hpick : pickReady names placed (i :: tl) with
      | none => rw [hpick] at h; cases h
      | some pr =>
        obtain ⟨x, rest⟩ := pr
        rw [hpick] at h
        dsimp only at h
        cases hrec : topoAux names n rest (x.stepName :: placed) with
        | none => rw [hrec] at h; cases h
        | some out' =>
          rw [hrec] at h
          rw [Option.map_some'] at h
          injection h with h
          subst h
          cases pre with
          | nil =>
            simp only [List.nil_append] at hsplit
            injection hsplit with h1 h2
            subst h1
            have hready := pickReady_ready names placed _ x rest hpick
            unfold ready at hready
            rw [List.all_eq_true] at hready
            obtain ⟨nm, o, hb⟩ := consumesFrom_elim x p hcons
            have hbr := hready (nm, Binding.output p o) hb
            simp only [Bool.or_eq_true, Bool.not_eq_eq_eq_not, Bool.not_true] at hbr
            rcases hbr with hbr | hbr
            · exact absurd (List.elem_iff.mpr hp) (by simpa using hbr)
            · exact Or.inl (List.elem_iff.mp (by simpa using hbr))
          | cons y pre' =>
            simp only [List.cons_append] at hsplit
            injection hsplit with h1 h2
            subst h1
            have := ih rest (x.stepName :: placed) out' hrec pre' inv post h2
              p hcons hp
            rcases this with hplaced | hpre
            · rcases List.mem_cons.mp hplaced with heq | hmem
              · subst heq
                exact Or.inr (by simp [stepNames])
              · exact Or.inl hmem
            · exact Or.inr (by simp [stepNames]; right; simpa [stepNames] using hpre)

end Orch

namespace Orch

theorem topo_edge_lt (invs out : List StepInvocation)
    (hnd : (stepNames invs).Nodup)
    (htopo : topoAux (stepNames invs) invs.length invs [] = some out)
    (a b : String) (hedge : Edge invs a b) :
    namePos a (stepNames out) < namePos b (stepNames out) := by
  obtain ⟨ha, invb, hinvb, hname, hcons⟩ := hedge
  have hperm : invs.Perm out := topoAux_perm _ _ _ _ _ htopo
  have hinvb' : invb ∈ out := hperm.mem_iff.mp hinvb
  obtain ⟨pre, post, hsplit⟩ := List.append_of_mem hinvb'
  have hresp := topoAux_respects (stepNames invs) invs.length invs [] out
    htopo pre invb post hsplit a hcons ha
  rcases hresp with h0 | hpre
  · simp at h0
  · have hndout : (stepNames out).Nodup := by
      have hpermN : (stepNames invs).Perm (stepNames out) := by
        unfold stepNames
        exact hperm.map _
      exact hpermN.nodup_iff.mp hnd
    have hout : stepNames out =
        stepNames pre ++ invb.stepName :: stepNames post := by
      rw [hsplit]
      simp [stepNames]
    have hbnot : invb.stepName ∉ stepNames pre := by
      rw [hout, List.nodup_append] at hndout
      exact fun hc => hndout.2.2 hc (List.mem_cons_self _ _)
    have hlt : namePos a (stepNames out) < (stepNames pre).length := by
      rw [hout]
      exact namePos_append_left a _ _ hpre
    have heq : namePos invb.stepName (stepNames out) =
        (stepNames pre).length := by
      rw [hout, namePos_append_right _ _ _ hbnot, namePos_cons_self]
      omega
    rw [hname] at heq
    omega

theorem topo_path_lt (invs out : List StepInvocation)
    (hnd : (stepNames invs).Nodup)
    (htopo : topoAux (stepNames invs) invs.length invs [] = some out)
    (a b : String) (hpath : Relation.TransGen (Edge invs) a b) :
    namePos a (stepNames out) < namePos b (stepNames out) := by
  induction hpath with
  | single h => exact topo_edge_lt invs out hnd htopo _ _ h
  | @tail x c hab hbc ihab =>
    exact ihab.trans (topo_edge_lt invs out hnd htopo _ _ hbc)

theorem noCycle_of_topo (invs out : List StepInvocation)
    (hnd : (stepNames invs).Nodup)
    (htopo : topoAux (stepNames invs) invs.length invs [] = some out) :
    ¬ HasCycle invs := by
  rintro ⟨x, hx⟩
  exact lt_irrefl _ (topo_path_lt invs out hnd htopo x x hx)

theorem cycle_of_preds {R : String → String → Prop} (L : List String)
    (hne : L ≠ []) (h : ∀ n ∈ L, ∃ p ∈ L, R p n) :
    ∃ x, Relation.TransGen R x x := by
  classical
  obtain ⟨x0, hx0⟩ := List.exists_mem_of_ne_nil L hne
  have hgex : ∀ n : String, ∃ p : String, n ∈ L → (p ∈ L ∧ R p n) := by
    intro n
    by_cases hn : n ∈ L
    · obtain ⟨p, hp, hr⟩ := h n hn
      exact ⟨p, fun _ => ⟨hp, hr⟩⟩
    · exact ⟨n, fun hc => absurd hc hn⟩
  choose g hgspec using hgex
  have hseqL : ∀ k : Nat, g^[k] x0 ∈ L := by
    intro k
    induction k with
    | zero => simpa using hx0
    | succ m ihm =>
      rw [Function.iterate_succ_apply']
      exact (hgspec _ ihm).1
  have hstep : ∀ k : Nat, R (g^[k + 1] x0) (g^[k] x0) := by
    intro k
    rw [Function.iterate_succ_apply']
    exact (hgspec _ (hseqL k)).2
  have hchain : ∀ i j : Nat, i < j →
      Relation.TransGen R (g^[j] x0) (g^[i] x0) := by
    intro i j hij
    induction j with
    | zero => omega
    | succ m ihm =>
      rcases Nat.lt_succ_iff_lt_or_eq.mp hij with hlt | heq
      · exact Relation.TransGen.head (hstep m) (ihm hlt)
      · subst heq
        exact Relation.TransGen.single (hstep i)
  have hcard : (L.toFinset).card < (Finset.range (L.length + 1)).card := by
    rw [Finset.card_range]
    exact Nat.lt_succ_of_le (List.toFinset_card_le L)
  obtain ⟨i, hi, j, hj, hne2, heq⟩ :=
    Finset.exists_ne_map_eq_of_card_lt_of_maps_to hcard
      (fun k _ => List.mem_toFinset.mpr (hseqL k))
  rcases Nat.lt_or_ge i j with hij | hij
  · refine ⟨g^[i] x0, ?_⟩
    have hc := hchain i j hij
    rw [← heq] at hc
    exact hc
  · have hji : j < i := lt_of_le_of_ne hij (Ne.symm hne2)
    refine ⟨g^[j] x0, ?_⟩
    have hc := hchain j i hji
    rw [heq] at hc
    exact hc

theorem topoAux_total (invs : List StepInvocation)
    (hnc : ¬ HasCycle invs) :
    ∀ (fuel : Nat) (pending : List StepInvocation) (placed : List String),
      pending.length ≤ fuel → (∀ i ∈ pending, i ∈ invs) →
      (placed ++ stepNames pending).Perm (stepNames invs) →
      (topoAux (stepNames invs) fuel pending placed).isSome = true := by
  intro fuel
  induction fuel with
  | zero =>
    intro pending placed hlen _ _
    have hnil : pending = [] := List.length_eq_zero.mp (Nat.le_zero.mp hlen)
    subst hnil
    rw [topoAux]
    rfl
  | succ n ih =>
    intro pending placed hlen hsub hperm
    cases pending with
    | nil =>
      rw [topoAux]
      rfl
    | cons i0 tl =>
      cases hpick : pickReady (stepNames invs) placed (i0 :: tl) with
      | none =>
        exfalso
        apply hnc
        have hall := pickReady_none _ _ _ hpick
        have hpre : ∀ nm ∈ stepNames (i0 :: tl),
            ∃ q ∈ stepNames (i0 :: tl), Edge invs q nm := by
          intro nm hnm
          obtain ⟨iv, hiv, hivn⟩ := List.mem_map.mp hnm
          have hreadyf := hall iv hiv
          unfold ready at hreadyf
          rw [List.all_eq_false] at hreadyf
          obtain ⟨⟨bn, bb⟩, hbmem, hbf⟩ := hreadyf
          cases bb with
          | literal v => simp at hbf
          | output p o =>
            simp only [Bool.not_eq_true, Bool.or_eq_false_iff,
              Bool.not_eq_false'] at hbf
            obtain ⟨hpn, hpp⟩ := hbf
            have hpnames : p ∈ stepNames invs := by
              have := List.elem_iff.mp (show List.elem p (stepNames invs) = true from hpn)
              exact this
            have hppl : p ∉ placed := by
              intro hc
              have := List.elem_iff.mpr hc
              rw [show List.elem p placed = placed.contains p from rfl] at this
              rw [this] at hpp
              cases hpp
            have hpmem : p ∈ stepNames (i0 :: tl) := by
              have hp2 : p ∈ placed ++ stepNames (i0 :: tl) :=
                hperm.mem_iff.mpr hpnames
              rcases List.mem_append.mp hp2 with hc | hc
              · exact absurd hc hppl
              · exact hc
            refine ⟨p, hpmem, hpnames, iv, hsub iv hiv, hivn, ?_⟩
            unfold consumesFrom
            rw [List.any_eq_true]
            exact ⟨(bn, Binding.output p o), hbmem, by simp⟩
        obtain ⟨x, hx⟩ :=
          cycle_of_preds (stepNames (i0 :: tl)) (by simp [stepNames]) hpre
        exact ⟨x, hx⟩
      | some pr =>
        obtain ⟨x, rest⟩ := pr
        have hperm2 := pickReady_perm _ _ _ _ _ hpick
        have hlen2 : rest.length ≤ n := by
          have hle := hperm2.length_eq
          simp only [List.length_cons] at hle hlen
          omega
        have hsub2 : ∀ i ∈ rest, i ∈ invs := fun i hi =>
          hsub i (hperm2.mem_iff.mpr (List.mem_cons_of_mem _ hi))
        have hmapped : (stepNames (i0 :: tl)).Perm
            (x.stepName :: stepNames rest) := by
          unfold stepNames
          exact hperm2.map _
        have hperm3 : ((x.stepName :: placed) ++ stepNames rest).Perm
            (stepNames invs) := by
          refine List.Perm.trans ?_ hperm
          have e1 : (x.stepName :: placed) ++ stepNames rest =
              x.stepName :: (placed ++ stepNames rest) := by simp
          rw [e1]
          refine List.Perm.trans List.perm_middle.symm ?_
          exact List.Perm.append_left placed hmapped.symm
        have hrec := ih rest (x.stepName :: placed) hlen2 hsub2 hperm3
        simp only [topoAux]
        rw [hpick]
        dsimp only
        obtain ⟨out', hout'⟩ := Option.isSome_iff_exists.mp hrec
        rw [hout']
        rfl

end Orch

namespace Orch

theorem build_ok (reg : List (String × StepDefinition)) (nm : String)
    (invs : List StepInvocation) (hnc : ¬ HasCycle invs)
    (hres : bindingsResolve invs = true)
    (hknown : stepsKnown reg invs = true) :
    build reg nm invs = .ok ⟨nm, invs⟩ := by
  have hsome := topoAux_total invs hnc invs.length invs []
    (Nat.le_refl _) (fun i hi => hi) (by simp)
  obtain ⟨out, hout⟩ := Option.isSome_iff_exists.mp hsome
  unfold build
  rw [hout, hres, hknown]
  simp

/-- C2: `build` fails with `CyclicPipeline` exactly when the binding
graph contains a (direct or transitive) cycle, and succeeds on every
acyclic invocation set whose references resolve and whose steps are
registered. -/
theorem claim_C2 (reg : List (String × StepDefinition)) (nm : String)
    (invs : List StepInvocation) (hnd : (stepNames invs).Nodup) :
    ((build reg nm invs = .error .cyclicPipeline) ↔ HasCycle invs) ∧
    (¬ HasCycle invs → bindingsResolve invs = true →
      stepsKnown reg invs = true → build reg nm invs = .ok ⟨nm, invs⟩) := by
  constructor
  · constructor
    · intro h
      by_contra hnc
      have hsome := topoAux_total invs hnc invs.length invs []
        (Nat.le_refl _) (fun i hi => hi) (by simp)
      obtain ⟨out, hout⟩ := Option.isSome_iff_exists.mp hsome
      unfold build at h
      rw [hout] at h
      by_cases h1 : bindingsResolve invs = true
      · rw [h1] at h
        by_cases h2 : stepsKnown reg invs = true
        · rw [h2] at h
          simp at h
        · have h2' : stepsKnown reg invs = false := by simpa using h2
          rw [h2'] at h
          simp at h
      · have h1' : bindingsResolve invs = false := by simpa using h1
        rw [h1'] at h
        simp at h
    · intro hcyc
      unfold build
      rw [if_pos]
      cases htopo : topoAux (stepNames invs) invs.length invs [] with
      | none => rfl
      | some out => exact absurd hcyc (noCycle_of_topo invs out hnd htopo)
  · intro hnc hres hknown
    exact build_ok reg nm invs hnc hres hknown

/-- Witness for C2: the two-invocation cycle `cycA ↔ cycB` makes `build`
fail with `CyclicPipeline`. -/
theorem claim_C2_witness :
    build [] "cyclic" cycleInvs = .error .cyclicPipeline :=
  (claim_C2 [] "cyclic" cycleInvs (by decide)).1.mpr
    ⟨"cycA", @Relation.TransGen.tail String (Edge cycleInvs) "cycA" "cycB"
      "cycA" (Relation.TransGen.single (by decide)) (by decide)⟩

theorem noTransGen_of_no_out {r : String → String → Prop} {a : String}
    (h : ∀ c, ¬ r a c) : ∀ b, ¬ Relation.TransGen r a b := by
  intro b hab
  induction hab with
  | single h1 => exact h _ h1
  | tail _ _ ihab => exact ihab

theorem topoAux_all_ready (names : List String) :
    ∀ (fuel : Nat) (pending : List StepInvocation) (placed : List String),
      pending.length ≤ fuel →
      (∀ inv ∈ pending, ∀ pl : List String, ready names pl inv = true) →
      topoAux names fuel pending placed = some pending := by
  intro fuel
  induction fuel with
  | zero =>
    intro pending placed hlen _
    have hnil : pending = [] := List.length_eq_zero.mp (Nat.le_zero.mp hlen)
    subst hnil
    rw [topoAux]
  | succ n ih =>
    intro pending placed hlen hready
    cases pending with
    | nil => rw [topoAux]
    | cons i0 tl =>
      simp only [topoAux]
      rw [show pickReady names placed (i0 :: tl) = some (i0, tl) from by
        unfold pickReady
        rw [if_pos (hready i0 (List.mem_cons_self _ _) placed)]]
      dsimp only
      rw [ih tl (i0.stepName :: placed)
        (by simp only [List.length_cons] at hlen; omega)
        (fun inv hi pl => hready inv (List.mem_cons_of_mem _ hi) pl)]
      rfl

/-- C3 (amended): `topologicalOrder` is deterministic — equal invocation
lists give equal output — and when no invocation consumes any other
invocation's output the order is exactly the declaration order; but
declaration order is not in general preserved between independent
invocations (see the counterexample). -/
theorem claim_C3 :
    (∀ p q : PipelineDefinition, p.invocations = q.invocations →
      topologicalOrder p = topologicalOrder q) ∧
    (∀ p : PipelineDefinition,
      (∀ inv ∈ p.invocations, ∀ a ∈ stepNames p.invocations,
        consumesFrom inv a = false) →
      topologicalOrder p = some p.invocations) := by
  constructor
  · intro p q h
    unfold topologicalOrder
    rw [h]
  · intro p h
    unfold topologicalOrder
    apply topoAux_all_ready _ _ _ _ (Nat.le_refl _)
    intro inv hi pl
    unfold ready
    rw [List.all_eq_true]
    rintro ⟨bn, bb⟩ hbmem
    cases bb with
    | literal v => rfl
    | output pr o =>
      have hnotin : pr ∉ stepNames p.invocations := by
        intro hc
        have hf := h inv hi pr hc
        unfold consumesFrom at hf
        rw [List.any_eq_false] at hf
        have := hf (bn, Binding.output pr o) hbmem
        simp at this
      have hcont : (stepNames p.invocations).contains pr = false := by
        by_contra hc
        have hc' : (stepNames p.invocations).contains pr = true := by
          simpa using hc
        exact hnotin (List.elem_iff.mp hc')
      simp only [hcont, Bool.not_false, Bool.true_or]

/-- Counterexample for C3: in `crossPipeline`, `alpha` (declared first)
and `beta` (declared second) are independent, yet `topologicalOrder`
emits `beta` before `alpha` because `alpha` waits for `gamma`. -/
theorem claim_C3_counterexample : ¬ declOrderStable crossPipeline := by
  intro h
  have hno_alpha : ∀ c, ¬ Edge crossInvs "alpha" c := by
    intro c hc
    obtain ⟨-, inv, hinv, -, hcons⟩ := hc
    have hall : ∀ inv ∈ crossInvs, consumesFrom inv "alpha" = false := by
      decide
    rw [hall inv hinv] at hcons
    cases hcons
  have hno_beta : ∀ c, ¬ Edge crossInvs "beta" c := by
    intro c hc
    obtain ⟨-, inv, hinv, -, hcons⟩ := hc
    have hall : ∀ inv ∈ crossInvs, consumesFrom inv "beta" = false := by
      decide
    rw [hall inv hinv] at hcons
    cases hcons
  have h1 := h
    [⟨"beta", [], [], []⟩, ⟨"gamma", [], [], ["o"]⟩,
      ⟨"alpha", [], [("x", .output "gamma" "o")], []⟩]
    (by decide)
    ⟨"alpha", [], [("x", .output "gamma" "o")], []⟩ (by decide)
    ⟨"beta", [], [], []⟩ (by decide) (by decide)
    ⟨noTransGen_of_no_out hno_alpha _, noTransGen_of_no_out hno_beta _⟩
  exact absurd h1 (by decide)

/-- Witness for C3 (amended): a pipeline of two invocations with no
bindings is ordered exactly as declared. -/
theorem claim_C3_witness :
    topologicalOrder ⟨"ind", indepInvs⟩ = some indepInvs :=
  claim_C3.2 ⟨"ind", indepInvs⟩ (by decide)

/-- C4: when a consumer is declared before its producer, `build` still
succeeds (validation is order-independent) and `topologicalOrder` places
the producer before the consumer. -/
theorem claim_C4 (reg : List (String × StepDefinition)) (nm : String)
    (invs : List StepInvocation) (hnd : (stepNames invs).Nodup)
    (hres : bindingsResolve invs = true)
    (hknown : stepsKnown reg invs = true) (hnc : ¬ HasCycle invs)
    (A B : StepInvocation) (hA : A ∈ invs) (hB : B ∈ invs)
    (hcons : consumesFrom B A.stepName = true)
    (_hdecl : namePos B.stepName (stepNames invs) <
      namePos A.stepName (stepNames invs)) :
    build reg nm invs = .ok ⟨nm, invs⟩ ∧
    ∃ out, topologicalOrder ⟨nm, invs⟩ = some out ∧
      namePos A.stepName (stepNames out) <
        namePos B.stepName (stepNames out) := by
  refine ⟨build_ok reg nm invs hnc hres hknown, ?_⟩
  have hsome := topoAux_total invs hnc invs.length invs []
    (Nat.le_refl _) (fun i hi => hi) (by simp)
  obtain ⟨out, hout⟩ := Option.isSome_iff_exists.mp hsome
  refine ⟨out, hout, ?_⟩
  have hedge : Edge invs A.stepName B.stepName :=
    ⟨List.mem_map_of_mem _ hA, B, hB, rfl, hcons⟩
  exact topo_edge_lt invs out hnd hout A.stepName B.stepName hedge

/-- Witness for C4 (spec Scenario 5): `revB` is declared before the
producer `revA`; `build` succeeds and the order places `revA` first. -/
theorem claim_C4_witness :
    build revRegistry "rev" revInvs = .ok ⟨"rev", revInvs⟩ ∧
    ∃ out, topologicalOrder ⟨"rev", revInvs⟩ = some out ∧
      namePos "revA" (stepNames out) < namePos "revB" (stepNames out) := by
  have h := claim_C4 revRegistry "rev" revInvs (by decide) (by decide)
    (by decide)
    (noCycle_of_topo revInvs
      [⟨"revA", [], [], ["oa"]⟩, ⟨"revB", [], [("i", .output "revA" "oa")], []⟩]
      (by decide) (by decide))
    ⟨"revA", [], [], ["oa"]⟩ ⟨"revB", [], [("i", .output "revA" "oa")], []⟩
    (by decide) (by decide) (by decide) (by decide)
  exact h

end Orch

namespace Orch

theorem stepsAllowed_refl (m : List (String × StepStatus)) :
    stepsAllowed m m :=
  List.forall₂_same.mpr (fun _ _ => ⟨rfl, Or.inl rfl⟩)

theorem stepsAllowed_set (m : List (String × StepStatus)) (k : String)
    (v : StepStatus) (h : ∀ e ∈ m, e.1 = k → allowedStep e.2 v) :
    stepsAllowed m (setStatus m k v) := by
  induction m with
  | nil => exact List.Forall₂.nil
  | cons e rest ih =>
    unfold setStatus
    rw [List.map_cons]
    by_cases hek : (e.1 == k) = true
    · rw [if_pos hek]
      exact List.Forall₂.cons
        ⟨by simpa using hek, h e (List.mem_cons_self _ _) (by simpa using hek)⟩
        (ih (fun x hx h1 => h x (List.mem_cons_of_mem _ hx) h1))
    · rw [if_neg hek]
      exact List.Forall₂.cons ⟨rfl, Or.inl rfl⟩
        (ih (fun x hx h1 => h x (List.mem_cons_of_mem _ hx) h1))

theorem mem_setStatus (m : List (String × StepStatus)) (k : String)
    (v : StepStatus) (e : String × StepStatus) (h : e ∈ setStatus m k v) :
    e = (k, v) ∨ (e ∈ m ∧ e.1 ≠ k) := by
  unfold setStatus at h
  rw [List.mem_map] at h
  obtain ⟨e0, he0, heq⟩ := h
  by_cases hk : (e0.1 == k) = true
  · rw [if_pos hk] at heq
    exact Or.inl heq.symm
  · rw [if_neg hk] at heq
    subst heq
    exact Or.inr ⟨he0, by simpa using hk⟩

theorem setStatus_setStatus (m : List (String × StepStatus)) (k : String)
    (v w : StepStatus) :
    setStatus (setStatus m k v) k w = setStatus m k w := by
  unfold setStatus
  rw [List.map_map]
  apply List.map_congr_left
  intro e _
  by_cases hk : (e.1 == k) = true
  · simp [Function.comp, hk]
  · have hk' : (e.1 == k) = false := by simpa using hk
    simp [Function.comp, hk']

theorem statusOf_setStatus_map (m : List (String × StepStatus)) (k : String)
    (v : StepStatus) :
    statusOf (setStatus m k v) k = (statusOf m k).map (fun _ => v) := by
  induction m with
  | nil => rfl
  | cons e rest ih =>
    by_cases he : (e.1 == k) = true
    · simp [statusOf, setStatus, List.find?, he]
    · have he' : (e.1 == k) = false := by simpa using he
      simp only [statusOf, setStatus, List.map_cons, he', if_false,
        Bool.false_eq_true] at ih ⊢
      rw [List.find?, List.find?]
      simp only [he']
      exact ih

theorem statusOf_init_pending (order : List StepInvocation) (k : String)
    (v : StepStatus) (h : statusOf (initStatuses order) k = some v) :
    v = .pending := by
  induction order with
  | nil => cases h
  | cons inv rest ih =>
    by_cases he : (inv.stepName == k) = true
    · simp [statusOf, initStatuses, List.find?, he] at h
      exact h.symm
    · have he' : (inv.stepName == k) = false := by simpa using he
      simp only [statusOf, initStatuses, List.map_cons] at h ih
      rw [List.find?] at h
      simp only [he'] at h
      exact ih h

theorem chain_stepSnapshots (oc : String → Bool) :
    ∀ (pending : List StepInvocation) (m : List (String × StepStatus)),
      (stepNames pending).Nodup →
      (∀ e ∈ m, e.1 ∈ stepNames pending → e.2 = .pending) →
      List.Chain' stepsAllowed (m :: stepSnapshots oc pending m) := by
  intro pending
  induction pending with
  | nil =>
    intro m _ _
    exact List.chain'_singleton m
  | cons inv rest ihp =>
    intro m hnd hI
    have hnames : stepNames (inv :: rest) =
        inv.stepName :: stepNames rest := rfl
    rw [hnames, List.nodup_cons] at hnd
    obtain ⟨hhead, hnd'⟩ := hnd
    have hIk : ∀ e ∈ m, e.1 = inv.stepName → e.2 = .pending :=
      fun e he h1 => hI e he (by rw [hnames, h1]; exact List.mem_cons_self _ _)
    rw [stepSnapshots]
    by_cases hps : producersSucceeded m inv = true
    · rw [if_pos hps]
      rw [List.chain'_cons, List.chain'_cons]
      refine ⟨?_, ?_, ?_⟩
      · exact stepsAllowed_set m inv.stepName .running
          (fun e he h1 => by rw [hIk e he h1]; exact Or.inr (Or.inl ⟨rfl, rfl⟩))
      · have hgoal : stepsAllowed (setStatus m inv.stepName .running)
            (setStatus (setStatus m inv.stepName .running) inv.stepName
              (if oc inv.stepName then StepStatus.succeeded else .failed)) := by
          apply stepsAllowed_set
          intro e he h1
          rcases mem_setStatus m inv.stepName .running e he with heq | ⟨_, hne⟩
          · rw [heq]
            by_cases hoc : oc inv.stepName = true
            · rw [if_pos hoc]
              exact Or.inr (Or.inr (Or.inl ⟨rfl, Or.inl rfl⟩))
            · rw [if_neg hoc]
              exact Or.inr (Or.inr (Or.inl ⟨rfl, Or.inr (Or.inl rfl)⟩))
          · exact absurd h1 hne
        rw [setStatus_setStatus] at hgoal
        exact hgoal
      · apply ihp _ hnd'
        intro e he h2
        rcases mem_setStatus m inv.stepName _ e he with heq | ⟨hem, hne⟩
        · rw [heq] at h2
          exact absurd h2 hhead
        · exact hI e hem (by rw [hnames]; exact List.mem_cons_of_mem _ h2)
    · rw [if_neg hps]
      rw [List.chain'_cons]
      refine ⟨?_, ?_⟩
      · exact stepsAllowed_set m inv.stepName .skipped
          (fun e he h1 => by
            rw [hIk e he h1]
            exact Or.inr (Or.inr (Or.inr ⟨rfl, rfl⟩)))
      · apply ihp _ hnd'
        intro e he h2
        rcases mem_setStatus m inv.stepName _ e he with heq | ⟨hem, hne⟩
        · rw [heq] at h2
          exact absurd h2 hhead
        · exact hI e hem (by rw [hnames]; exact List.mem_cons_of_mem _ h2)

theorem stepSnapshots_last (oc : String → Bool) :
    ∀ (pending : List StepInvocation) (m : List (String × StepStatus)),
      (m :: stepSnapshots oc pending m).getLast? =
        some (execStepsFrom oc pending m) := by
  intro pending
  induction pending with
  | nil => intro m; rfl
  | cons inv rest ih =>
    intro m
    rw [stepSnapshots, execStepsFrom]
    by_cases hps : producersSucceeded m inv = true
    · rw [if_pos hps, if_pos hps]
      rw [List.getLast?_cons_cons, List.getLast?_cons_cons]
      exact ih _
    · rw [if_neg hps, if_neg hps]
      rw [List.getLast?_cons_cons]
      exact ih _

theorem ran_of_terminal (oc : String → Bool) :
    ∀ (pending : List StepInvocation) (m : List (String × StepStatus))
      (k : String) (s : StepStatus),
      (stepNames pending).Nodup →
      statusOf (execStepsFrom oc pending m) k = some s →
      (s = .succeeded ∨ s = .failed) →
      statusOf m k = some s ∨
        ∃ snap ∈ stepSnapshots oc pending m, statusOf snap k = some .running := by
  intro pending
  induction pending with
  | nil =>
    intro m k s _ h _
    exact Or.inl h
  | cons inv rest ih =>
    intro m k s hnd h hs
    have hnames : stepNames (inv :: rest) =
        inv.stepName :: stepNames rest := rfl
    rw [hnames, List.nodup_cons] at hnd
    obtain ⟨hhead, hnd'⟩ := hnd
    have hrestne : ∀ i ∈ rest, i.stepName ≠ inv.stepName := by
      intro i hi hcontra
      exact hhead (hcontra ▸ List.mem_map_of_mem _ hi)
    rw [execStepsFrom] at h
    rw [stepSnapshots]
    by_cases hps : producersSucceeded m inv = true
    · rw [if_pos hps] at h ⊢
      by_cases hk : k = inv.stepName
      · subst hk
        have hfr := exec_frame oc rest
          (setStatus m inv.stepName
            (if oc inv.stepName then StepStatus.succeeded else .failed))
          inv.stepName (fun i hi => hrestne i hi)
        rw [hfr] at h
        rw [statusOf_setStatus_map] at h
        cases hmk : statusOf m inv.stepName with
        | none => rw [hmk] at h; cases h
        | some w =>
          refine Or.inr ⟨setStatus m inv.stepName .running,
            List.mem_cons_self _ _, ?_⟩
          rw [statusOf_setStatus_map, hmk]
          rfl
      · rcases ih _ k s hnd' h hs with hl | ⟨snap, hsnap, hst⟩
        · rw [statusOf_setStatus_ne _ _ _ _ hk] at hl
          exact Or.inl hl
        · exact Or.inr ⟨snap, by
            exact List.mem_cons_of_mem _ (List.mem_cons_of_mem _ hsnap), hst⟩
    · rw [if_neg hps] at h ⊢
      by_cases hk : k = inv.stepName
      · subst hk
        have hfr := exec_frame oc rest (setStatus m inv.stepName .skipped)
          inv.stepName (fun i hi => hrestne i hi)
        rw [hfr] at h
        rw [statusOf_setStatus_map] at h
        cases hmk : statusOf m inv.stepName with
        | none => rw [hmk] at h; cases h
        | some w =>
          rw [hmk] at h
          injection h with h
          rcases hs with hs | hs <;> rw [hs] at h <;> cases h
      · rcases ih _ k s hnd' h hs with hl | ⟨snap, hsnap, hst⟩
        · rw [statusOf_setStatus_ne _ _ _ _ hk] at hl
          exact Or.inl hl
        · exact Or.inr ⟨snap, List.mem_cons_of_mem _ hsnap, hst⟩

theorem overall_terminal (m : List (String × StepStatus)) :
    overall m = .succeeded ∨ overall m = .failed ∨ overall m = .partFailed := by
  unfold overall
  by_cases h1 : m.all (fun e => e.2 == StepStatus.succeeded) = true
  · rw [if_pos h1]
    exact Or.inl rfl
  · rw [if_neg h1]
    by_cases h2 : m.any (fun e => e.2 == StepStatus.succeeded) = true
    · rw [if_pos h2]
      exact Or.inr (Or.inr rfl)
    · rw [if_neg h2]
      exact Or.inr (Or.inl rfl)

end Orch

namespace Orch

/-- C9: every transition in a run's trace is one allowed by the state
machine of §4.3 (run: pending → running → terminal; step: pending →
running → terminal, with skipped reachable directly from pending only for
non-executed steps); every executed step passed through `running`; and no
allowed step or run transition leaves a terminal status. -/
theorem claim_C9 (oc : String → Bool) (order : List StepInvocation)
    (hnd : (stepNames order).Nodup) :
    (execTrace oc order).Chain' allowedSnap ∧
    (∀ k s, statusOf (runSteps oc order) k = some s →
      (s = .succeeded ∨ s = .failed) →
      ∃ snap ∈ execTrace oc order, statusOf snap.steps k = some .running) ∧
    (∀ s t, allowedStep s t →
      (s = .succeeded ∨ s = .failed ∨ s = .skipped) → t = s) ∧
    (∀ s t, allowedRun s t →
      (s = .succeeded ∨ s = .failed ∨ s = .partFailed) → t = s) := by
  have hIinit : ∀ e ∈ initStatuses order, e.1 ∈ stepNames order →
      e.2 = StepStatus.pending := by
    intro e he _
    unfold initStatuses at he
    rw [List.mem_map] at he
    obtain ⟨iv, -, heq⟩ := he
    rw [← heq]
  have hchain0 : List.Chain' stepsAllowed
      (initStatuses order :: stepSnapshots oc order (initStatuses order)) :=
    chain_stepSnapshots oc order (initStatuses order) hnd hIinit
  have hmapchain : List.Chain' allowedSnap
      ((initStatuses order ::
        stepSnapshots oc order (initStatuses order)).map
          (fun m => Snapshot.mk .running m)) := by
    rw [List.chain'_map]
    exact hchain0.imp (fun a b hab => ⟨Or.inl rfl, hab⟩)
  have hlast : ((initStatuses order ::
      stepSnapshots oc order (initStatuses order)).map
        (fun m => Snapshot.mk .running m)).getLast? =
      some (Snapshot.mk .running (runSteps oc order)) := by
    rw [List.getLast?_map, stepSnapshots_last oc order (initStatuses order)]
    rfl
  have hfinlink : allowedSnap (Snapshot.mk .running (runSteps oc order))
      (Snapshot.mk (overall (runSteps oc order)) (runSteps oc order)) := by
    constructor
    · rcases overall_terminal (runSteps oc order) with h | h | h <;> rw [h]
      · exact Or.inr (Or.inr ⟨rfl, Or.inl rfl⟩)
      · exact Or.inr (Or.inr ⟨rfl, Or.inr (Or.inl rfl)⟩)
      · exact Or.inr (Or.inr ⟨rfl, Or.inr (Or.inr rfl)⟩)
    · exact stepsAllowed_refl _
  refine ⟨?_, ?_, ?_, ?_⟩
  · unfold execTrace
    rw [List.chain'_append]
    refine ⟨?_, List.chain'_singleton _, ?_⟩
    · rw [List.chain'_cons']
      refine ⟨?_, hmapchain⟩
      intro y hy
      rw [List.map_cons, List.head?_cons, Option.mem_def] at hy
      injection hy with hy
      rw [← hy]
      exact ⟨Or.inr (Or.inl ⟨rfl, rfl⟩), stepsAllowed_refl _⟩
    · intro x hx y hy
      rw [List.map_cons, List.getLast?_cons_cons, ← List.map_cons,
        hlast, Option.mem_def] at hx
      injection hx with hx
      rw [List.head?_cons, Option.mem_def] at hy
      injection hy with hy
      rw [← hx, ← hy]
      exact hfinlink
  · intro k s hstat hs
    rcases ran_of_terminal oc order (initStatuses order) k s hnd hstat hs with
      hl | ⟨snap, hsnap, hrun⟩
    · have hpend := statusOf_init_pending order k s hl
      rcases hs with h | h <;> rw [h] at hpend <;> cases hpend
    · refine ⟨Snapshot.mk .running snap, ?_, hrun⟩
      unfold execTrace
      rw [List.mem_append]
      left
      rw [List.mem_cons]
      right
      rw [List.mem_map]
      exact ⟨snap, List.mem_cons_of_mem _ hsnap, rfl⟩
  · intro s t h hterm
    rcases h with h | ⟨h1, h2⟩ | ⟨h1, h2⟩ | ⟨h1, h2⟩
    · exact h.symm
    all_goals rcases hterm with ht | ht | ht <;> rw [ht] at h1 <;> cases h1
  · intro s t h hterm
    rcases h with h | ⟨h1, h2⟩ | ⟨h1, h2⟩
    · exact h.symm
    all_goals rcases hterm with ht | ht | ht <;> rw [ht] at h1 <;> cases h1

/-- Witness for C9: the Scenario 2 run's trace consists solely of allowed
transitions. -/
theorem claim_C9_witness :
    (execTrace trainFails penguinInvs).Chain' allowedSnap :=
  (claim_C9 trainFails penguinInvs (by decide)).1

end Orch
